import Mathlib

/-!
Verification of the FYS-STK4155 Project 3 data-generation and sweep code.

The numeric type of the embedding is `ℚ` (the Python code computes with
floats; the claims under test are about the exact algebraic structure of the
computations, so exact rationals are the faithful shallow embedding).
`np.exp` and `np.random` are modelled as oracle parameters, since the claims
only concern how the code *uses* them.
-/

/-- Triangular number helper: `tri k = k * (k + 1) / 2`.  The source computes
the starting column of level `i` as `int((i + 1) * (i + 2) / 2) = tri (i + 1)`
(the product of two consecutive integers is even, so the Python float
division followed by `int` is exact). -/
def tri (k : ℕ) : ℕ := k * (k + 1) / 2

theorem tri_succ (k : ℕ) : tri (k + 1) = tri k + (k + 1) := by
  unfold tri
  have h : (k + 1) * (k + 1 + 1) = k * (k + 1) + 2 * (k + 1) := by ring
  omega

theorem tri_one_pos (k : ℕ) : 1 ≤ tri (k + 1) := by
  rw [tri_succ]
  omega

theorem tri_mono {m n : ℕ} (h : m ≤ n) : tri m ≤ tri n := by
  induction n with
  | zero => simp_all
  | succ n ih =>
    rcases Nat.lt_or_ge m (n + 1) with h2 | h2
    · have := ih (by omega)
      rw [tri_succ]
      omega
    · have : m = n + 1 := by omega
      subst this
      exact le_refl _

/-- `get_number_of_parameters` from `FrankeData`
(`int((self.degree + 1) * (self.degree + 2) / 2)`; exact, see `tri`). -/
def get_number_of_parameters (degree : ℕ) : ℕ := (degree + 1) * (degree + 2) / 2

/-- The numpy column assignment `X[:, c] = v`: matrices are modelled as
functions `row → column → ℚ`. -/
def updCol (X : ℕ → ℕ → ℚ) (c : ℕ) (v : ℕ → ℚ) : ℕ → ℕ → ℚ :=
  fun r c2 => if c2 = c then v r else X r c2

/-- The inner loop of `FrankeData.generate_design_matrix` for level `i`:
`for j in range(i + 2): X[:, q + j] = x ** (i - j + 1) * y ** j` with
`q = int((i + 1) * (i + 2) / 2)`.  Python computes the exponent `i - j + 1`
over ℤ; since `j ≤ i + 1` in the loop it equals the natural number
`i + 1 - j` used here. -/
def innerLoop (x y : ℕ → ℚ) (i : ℕ) (X : ℕ → ℕ → ℚ) : ℕ → ℕ → ℚ :=
  (List.range (i + 2)).foldl
    (fun A j => updCol A ((i + 1) * (i + 2) / 2 + j) (fun r => x r ^ (i + 1 - j) * y r ^ j)) X

/-- `FrankeData.generate_design_matrix`: start from `np.ones((N, p))` and run
the level loop `for i in range(self.degree)`.  Rows and columns are modelled
as unbounded indices; the shape `(N, p)` of the numpy result is captured by
`generate_design_matrix_list` below. -/
def generate_design_matrix (degree : ℕ) (x y : ℕ → ℚ) : ℕ → ℕ → ℚ :=
  (List.range degree).foldl (fun X i => innerLoop x y i X) fun _ _ => (1 : ℚ)

/-- The `(N, p)` array actually returned: `N` rows, each of length
`get_number_of_parameters degree`. -/
def generate_design_matrix_list (degree N : ℕ) (x y : ℕ → ℚ) : List (List ℚ) :=
  (List.range N).map fun r =>
    (List.range (get_number_of_parameters degree)).map fun c =>
      generate_design_matrix degree x y r c

theorem foldl_updCol_apply (f : ℕ → ℕ → ℚ) (q : ℕ) (m : ℕ) (X : ℕ → ℕ → ℚ) (r c : ℕ) :
    ((List.range m).foldl (fun A j => updCol A (q + j) (f j)) X) r c
      = if q ≤ c ∧ c < q + m then f (c - q) r else X r c := by
  induction m with
  | zero =>
    rw [if_neg (by omega)]
    rfl
  | succ m ih =>
    rw [List.range_succ, List.foldl_append, List.foldl_cons, List.foldl_nil]
    by_cases hc : c = q + m
    · subst hc
      rw [if_pos (by omega)]
      have hq : q + m - q = m := by omega
      simp [updCol, hq]
    · have step : updCol ((List.range m).foldl (fun A j => updCol A (q + j) (f j)) X)
          (q + m) (f m) r c
          = ((List.range m).foldl (fun A j => updCol A (q + j) (f j)) X) r c := by
        simp [updCol, hc]
      rw [step, ih]
      by_cases h1 : q ≤ c ∧ c < q + m
      · rw [if_pos h1, if_pos (by omega)]
      · rw [if_neg h1, if_neg (by omega)]

theorem innerLoop_apply (x y : ℕ → ℚ) (i : ℕ) (X : ℕ → ℕ → ℚ) (r c : ℕ) :
    innerLoop x y i X r c
      = if tri (i + 1) ≤ c ∧ c < tri (i + 1) + (i + 2)
        then x r ^ (i + 1 - (c - tri (i + 1))) * y r ^ (c - tri (i + 1))
        else X r c := by
  have h : tri (i + 1) = (i + 1) * (i + 2) / 2 := rfl
  rw [innerLoop, foldl_updCol_apply (fun j => fun r => x r ^ (i + 1 - j) * y r ^ j)
    ((i + 1) * (i + 2) / 2) (i + 2) X r c, h]

theorem gdm_succ (n : ℕ) (x y : ℕ → ℚ) :
    generate_design_matrix (n + 1) x y = innerLoop x y n (generate_design_matrix n x y) := by
  unfold generate_design_matrix
  rw [List.range_succ, List.foldl_append, List.foldl_cons, List.foldl_nil]

theorem gdm_zero_col (n : ℕ) (x y : ℕ → ℚ) (r : ℕ) :
    generate_design_matrix n x y r 0 = 1 := by
  induction n with
  | zero => rfl
  | succ n ih =>
    rw [gdm_succ, innerLoop_apply]
    rw [if_neg (by have := tri_one_pos n; omega)]
    exact ih

theorem gdm_entry (n : ℕ) (x y : ℕ → ℚ) (i j : ℕ) (hi : i < n) (hj : j < i + 2) (r : ℕ) :
    generate_design_matrix n x y r (tri (i + 1) + j) = x r ^ (i + 1 - j) * y r ^ j := by
  induction n with
  | zero => omega
  | succ n ih =>
    rw [gdm_succ, innerLoop_apply]
    by_cases h : i = n
    · subst h
      rw [if_pos (by omega)]
      have hc : tri (i + 1) + j - tri (i + 1) = j := by omega
      rw [hc]
    · have hin : i < n := by omega
      have hblock : tri (i + 1) + j < tri (n + 1) := by
        have h1 : tri (i + 1) + j < tri (i + 2) := by
          rw [tri_succ (i + 1)]
          omega
        have h2 : tri (i + 2) ≤ tri (n + 1) := tri_mono (by omega)
        omega
      rw [if_neg (by omega)]
      exact ih hin

/-- C1: for equal-length inputs and `degree ≥ 1`, column `(i+1)(i+2)/2 + j`
of the design matrix (for `0 ≤ i < degree`, `0 ≤ j ≤ i + 1`) equals
`x^(i-j+1) * y^j`; the two exponents of any such column sum to `i + 1`
(columns are grouped by total degree), and within a group the exponent of
`x` strictly decreases from left to right. -/
theorem C1_design_matrix_triangular (degree i j : ℕ) (x y : ℕ → ℚ)
    (hdeg : 1 ≤ degree) (hi : i < degree) (hj : j ≤ i + 1) :
    (∀ r, generate_design_matrix degree x y r ((i + 1) * (i + 2) / 2 + j)
        = x r ^ (i + 1 - j) * y r ^ j)
    ∧ (i + 1 - j) + j = i + 1
    ∧ (j ≤ i → i + 1 - (j + 1) < i + 1 - j) := by
  refine ⟨fun r => ?_, by omega, by omega⟩
  have h : (i + 1) * (i + 2) / 2 = tri (i + 1) := rfl
  rw [h]
  exact gdm_entry degree x y i j hi (by omega) r

/-- Witness for C1: at `degree = 2`, level `i = 1`, split `j = 1`,
`x ≡ 2`, `y ≡ 3`, the column `(1+1)(1+2)/2 + 1 = 4` entry is
`2^1 * 3^1 = 6`. -/
theorem C1_design_matrix_triangular_witness :
    generate_design_matrix 2 (fun _ => 2) (fun _ => 3) 0 4 = 6 := by
  have h := C1_design_matrix_triangular 2 1 1 (fun _ => 2) (fun _ => 3)
    (by decide) (by decide) (by decide)
  have h0 := h.1 0
  norm_num at h0
  exact h0

/-- C2: the design matrix has `N` rows, each of length
`(degree+1)(degree+2)/2`; column 0 is everywhere 1; and at `degree = 0`
every row is the single-entry row `[1]`. -/
theorem C2_design_matrix_shape (degree N : ℕ) (x y : ℕ → ℚ) :
    (generate_design_matrix_list degree N x y).length = N
    ∧ (∀ row ∈ generate_design_matrix_list degree N x y,
        row.length = (degree + 1) * (degree + 2) / 2)
    ∧ get_number_of_parameters degree = (degree + 1) * (degree + 2) / 2
    ∧ (∀ r, generate_design_matrix degree x y r 0 = 1)
    ∧ (∀ row ∈ generate_design_matrix_list 0 N x y, row = [1]) := by
  refine ⟨by simp [generate_design_matrix_list], ?_, rfl, fun r => gdm_zero_col degree x y r, ?_⟩
  · intro row hrow
    rw [generate_design_matrix_list] at hrow
    obtain ⟨r, _, hr⟩ := List.mem_map.mp hrow
    rw [← hr]
    simp [get_number_of_parameters]
  · intro row hrow
    rw [generate_design_matrix_list] at hrow
    obtain ⟨r, _, hr⟩ := List.mem_map.mp hrow
    rw [← hr]
    have hp : get_number_of_parameters 0 = 1 := rfl
    rw [hp]
    have h1 : List.range 1 = [0] := rfl
    rw [h1, List.map_cons, List.map_nil, gdm_zero_col]

/-- `FrankeData.FrankeFunction`, transcribed term by term from the source.
`np.exp` is an oracle parameter `exp`: the claims concern the algebraic
arguments fed to it and the linear combination of the four terms, which is
exactly what is representable over `ℚ`. -/
def FrankeFunction (exp : ℚ → ℚ) (x y : ℚ) : ℚ :=
  let term1 := 0.75 * exp (-(0.25 * (9 * x - 2) ^ 2) - 0.25 * (9 * y - 2) ^ 2)
  let term2 := 0.75 * exp (-((9 * x + 1) ^ 2) / 49 - 0.1 * (9 * y + 1))
  let term3 := 0.5 * exp (-((9 * x - 7) ^ 2) / 4 - 0.25 * (9 * y - 3) ^ 2)
  let term4 := -0.2 * exp (-((9 * x - 4) ^ 2) - (9 * y - 7) ^ 2)
  term1 + term2 + term3 + term4

/-- The four-term sum as displayed in the spec (the refinement target for C3),
with the same exponential oracle. -/
def FrankeFunctionSpec (exp : ℚ → ℚ) (x y : ℚ) : ℚ :=
  0.75 * exp (-((9 * x - 2) ^ 2) / 4 - ((9 * y - 2) ^ 2) / 4)
    + 0.75 * exp (-((9 * x + 1) ^ 2) / 49 - 0.1 * (9 * y + 1))
    + 0.5 * exp (-((9 * x - 7) ^ 2) / 4 - ((9 * y - 3) ^ 2) / 4)
    - 0.2 * exp (-((9 * x - 4) ^ 2) - (9 * y - 7) ^ 2)

/-- C3: the code's `FrankeFunction` equals the spec's four-term closed form,
for every exponential oracle and all inputs. -/
theorem C3_franke_function_formula (exp : ℚ → ℚ) (x y : ℚ) :
    FrankeFunction exp x y = FrankeFunctionSpec exp x y := by
  unfold FrankeFunction FrankeFunctionSpec
  have h1 : -(0.25 * (9 * x - 2) ^ 2) - 0.25 * (9 * y - 2) ^ 2
      = -((9 * x - 2) ^ 2) / 4 - ((9 * y - 2) ^ 2) / 4 := by ring
  have h3 : -((9 * x - 7) ^ 2) / 4 - 0.25 * (9 * y - 3) ^ 2
      = -((9 * x - 7) ^ 2) / 4 - ((9 * y - 3) ^ 2) / 4 := by ring
  rw [h1, h3]
  ring

/-- `DEFAULT_NOISE_LEVEL = 0.2` from `franke.py`. -/
def DEFAULT_NOISE_LEVEL : ℚ := 0.2

/-- `FrankeData.generate_noise(N, noise_level)`:
`np.random.normal(loc=0.0, scale=noise_level, size=N)`.  The sampler
`normal loc scale size` is an oracle returning the sampled array
(one entry per index); Gaussianity and independence are properties of
`np.random.normal` itself, outside the embedding. -/
def generate_noise (normal : ℚ → ℚ → ℕ → ℕ → ℚ) (N : ℕ) (noise_level : ℚ) : ℕ → ℚ :=
  normal 0 noise_level N

/-- `FrankeData.NoisyFrankeFunction(x, y, noise_level)`: elementwise
`FrankeFunction(x, y) + generate_noise(x.shape, noise_level)`, where `N` is
the common length of `x` and `y` (`x.shape`). -/
def NoisyFrankeFunction (exp : ℚ → ℚ) (normal : ℚ → ℚ → ℕ → ℕ → ℚ)
    (N : ℕ) (x y : ℕ → ℚ) (noise_level : ℚ) : ℕ → ℚ :=
  fun r => FrankeFunction exp (x r) (y r) + generate_noise normal N noise_level r

/-- C4: the noisy variant is the noiseless Franke function plus an
elementwise noise array of the input's shape, drawn from the sampler with
mean (`loc`) 0 and standard deviation (`scale`) equal to the given noise
level, one sampler entry per output element; and the default noise level is
0.2. -/
theorem C4_noisy_franke (exp : ℚ → ℚ) (normal : ℚ → ℚ → ℕ → ℕ → ℚ)
    (N : ℕ) (x y : ℕ → ℚ) (sigma : ℚ) :
    (∀ r, NoisyFrankeFunction exp normal N x y sigma r
        = FrankeFunction exp (x r) (y r) + normal 0 sigma N r)
    ∧ generate_noise normal N sigma = normal 0 sigma N
    ∧ DEFAULT_NOISE_LEVEL = 0.2 := by
  exact ⟨fun r => rfl, rfl, rfl⟩

/-- `np.max` over a nonempty list (on the empty list `np.max` raises; the
`[]` case here is an arbitrary default, unused by the theorems). -/
def listMax : List ℚ → ℚ
  | [] => 0
  | a :: t => t.foldl max a

/-- `np.min` over a nonempty list, same convention as `listMax`. -/
def listMin : List ℚ → ℚ
  | [] => 0
  | a :: t => t.foldl min a

theorem foldl_max_init_le (t : List ℚ) : ∀ a, a ≤ t.foldl max a := by
  induction t with
  | nil => intro a; exact le_refl a
  | cons b t ih => intro a; exact le_trans (le_max_left a b) (ih (max a b))

theorem foldl_max_mem_le (t : List ℚ) : ∀ a v, v ∈ t → v ≤ t.foldl max a := by
  induction t with
  | nil => intro a v hv; simp at hv
  | cons b t ih =>
    intro a v hv
    rcases List.mem_cons.mp hv with h | h
    · subst h
      exact le_trans (le_max_right a v) (foldl_max_init_le t (max a v))
    · exact ih (max a b) v h

theorem foldl_max_mem (t : List ℚ) : ∀ a, t.foldl max a = a ∨ t.foldl max a ∈ t := by
  induction t with
  | nil => intro a; exact Or.inl rfl
  | cons b t ih =>
    intro a
    rcases ih (max a b) with h | h
    · rcases max_choice a b with h2 | h2
      · left
        rw [List.foldl_cons, h, h2]
      · right
        rw [List.mem_cons]
        left
        rw [List.foldl_cons, h, h2]
    · right
      exact List.mem_cons_of_mem b h

theorem listMax_mem (l : List ℚ) (hl : l ≠ []) : listMax l ∈ l := by
  match l with
  | [] => exact absurd rfl hl
  | a :: t =>
    rcases foldl_max_mem t a with h | h
    · rw [listMax, h]; exact List.mem_cons_self a t
    · rw [listMax]; exact List.mem_cons_of_mem a h

theorem le_listMax (l : List ℚ) (v : ℚ) (hv : v ∈ l) : v ≤ listMax l := by
  match l with
  | a :: t =>
    rcases List.mem_cons.mp hv with h | h
    · subst h; exact foldl_max_init_le t v
    · exact foldl_max_mem_le t a v h

theorem foldl_min_init_le (t : List ℚ) : ∀ a, t.foldl min a ≤ a := by
  induction t with
  | nil => intro a; exact le_refl a
  | cons b t ih => intro a; exact le_trans (ih (min a b)) (min_le_left a b)

theorem foldl_min_mem_le (t : List ℚ) : ∀ a v, v ∈ t → t.foldl min a ≤ v := by
  induction t with
  | nil => intro a v hv; simp at hv
  | cons b t ih =>
    intro a v hv
    rcases List.mem_cons.mp hv with h | h
    · subst h
      exact le_trans (foldl_min_init_le t (min a v)) (min_le_right a v)
    · exact ih (min a b) v h

theorem listMin_le (l : List ℚ) (v : ℚ) (hv : v ∈ l) : listMin l ≤ v := by
  match l with
  | a :: t =>
    rcases List.mem_cons.mp hv with h | h
    · subst h; exact foldl_min_init_le t v
    · exact foldl_min_mem_le t a v h

theorem foldl_min_mem (t : List ℚ) : ∀ a, t.foldl min a = a ∨ t.foldl min a ∈ t := by
  induction t with
  | nil => intro a; exact Or.inl rfl
  | cons b t ih =>
    intro a
    rcases ih (min a b) with h | h
    · rcases min_choice a b with h2 | h2
      · left
        rw [List.foldl_cons, h, h2]
      · right
        rw [List.mem_cons]
        left
        rw [List.foldl_cons, h, h2]
    · right
      exact List.mem_cons_of_mem b h

theorem listMin_mem (l : List ℚ) (hl : l ≠ []) : listMin l ∈ l := by
  match l with
  | [] => exact absurd rfl hl
  | a :: t =>
    rcases foldl_min_mem t a with h | h
    · rw [listMin, h]; exact List.mem_cons_self a t
    · rw [listMin]; exact List.mem_cons_of_mem a h

/-- Modelled from the spec: the `scale_data` method lives in the abstract
`Data` base class (`data/abstract_data.py`), which is not among the sources;
the spec states the optional rescaling "maps outputs by `z / max(z)`". -/
def scale_data (z : List ℚ) : List ℚ := z.map fun v => v / listMax z

/-- C5: the rescaling divides every element by the array maximum only, so
when `max(z) > 0 > min(z)` all outputs lie in `[min(z)/max(z), 1]`, both
endpoints are attained, and the lower endpoint is negative — hence this is
neither a `[0, 1]` nor a `[-1, 1]` min-max normalization. -/
theorem C5_scale_by_max (z : List ℚ) (hmax : 0 < listMax z) (hmin : listMin z < 0) :
    (∀ v ∈ scale_data z, listMin z / listMax z ≤ v ∧ v ≤ 1)
    ∧ (1 : ℚ) ∈ scale_data z
    ∧ listMin z / listMax z ∈ scale_data z
    ∧ listMin z / listMax z < 0 := by
  have hne : z ≠ [] := by
    intro h
    subst h
    simp [listMax] at hmax
  refine ⟨?_, ?_, ?_, div_neg_of_neg_of_pos hmin hmax⟩
  · intro v hv
    rw [scale_data] at hv
    obtain ⟨w, hw, hvw⟩ := List.mem_map.mp hv
    subst hvw
    constructor
    · exact (div_le_div_iff_of_pos_right hmax).mpr (listMin_le z w hw)
    · rw [div_le_one hmax]
      exact le_listMax z w hw
  · rw [scale_data]
    refine List.mem_map.mpr ⟨listMax z, listMax_mem z hne, ?_⟩
    exact div_self (ne_of_gt hmax)
  · rw [scale_data]
    exact List.mem_map.mpr ⟨listMin z, listMin_mem z hne, rfl⟩

/-- Witness for C5: `z = [-3, 2]` has `max = 2 > 0 > -3 = min`; the scaled
list is `[-3/2, 1]`, whose elements lie in `[-3/2, 1]`, with both endpoints
attained and `-3/2 < 0`. -/
theorem C5_scale_by_max_witness :
    (∀ v ∈ scale_data [-3, 2], listMin [-3, 2] / listMax [-3, 2] ≤ v ∧ v ≤ 1)
    ∧ (1 : ℚ) ∈ scale_data [-3, 2]
    ∧ listMin [-3, 2] / listMax [-3, 2] ∈ scale_data [-3, 2]
    ∧ listMin [-3, 2] / listMax [-3, 2] < 0 :=
  C5_scale_by_max [-3, 2] (by decide) (by decide)

/-- `write_to_file(filename, x, mses_train, mses_test, biases, variances,
x_label)` from `bias_variance.py`, modelled as the list of lines written to
the output file (one string per line, without the trailing newline): a header
line, then `x[i],mses_train[i],mses_test[i],biases[i],variances[i]` for each
`i in range(len(x))`.  The numeric values appear as the decimal strings the
f-string renders them to, so the line type is `String`. -/
def write_to_file (x mses_train mses_test biases variances : List String)
    (x_label : String) : List String :=
  (x_label ++ ",mse_train,mse_test,bias,variance") ::
    (List.range x.length).map fun i =>
      x[i]! ++ "," ++ mses_train[i]! ++ "," ++ mses_test[i]! ++ ","
        ++ biases[i]! ++ "," ++ variances[i]!

/-- C6: the written file is the header `<x_label>,mse_train,mse_test,bias,
variance` followed by exactly one data row per swept value, and data row `i`
is the comma join of `x[i]`, `mses_train[i]`, `mses_test[i]`, `biases[i]`,
`variances[i]`. -/
theorem C6_write_to_file (x m1 m2 b v : List String) (x_label : String)
    (i : ℕ) (hi : i < x.length) :
    (write_to_file x m1 m2 b v x_label).length = x.length + 1
    ∧ (write_to_file x m1 m2 b v x_label).head?
        = some (x_label ++ ",mse_train,mse_test,bias,variance")
    ∧ (write_to_file x m1 m2 b v x_label).get? (i + 1)
        = some (x[i]! ++ "," ++ m1[i]! ++ "," ++ m2[i]! ++ "," ++ b[i]! ++ "," ++ v[i]!) := by
  refine ⟨by simp [write_to_file], rfl, ?_⟩
  rw [write_to_file, List.get?_cons_succ, List.get?_map, List.get?_range hi]
  rfl

/-- Witness for C6: a one-value sweep, checked at row index 0. -/
theorem C6_write_to_file_witness :
    (write_to_file ["1"] ["a"] ["b"] ["c"] ["d"] "degree").length = 2
    ∧ (write_to_file ["1"] ["a"] ["b"] ["c"] ["d"] "degree").head?
        = some "degree,mse_train,mse_test,bias,variance"
    ∧ (write_to_file ["1"] ["a"] ["b"] ["c"] ["d"] "degree").get? 1
        = some "1,a,b,c,d" := by
  have h := C6_write_to_file ["1"] ["a"] ["b"] ["c"] ["d"] "degree" 0 (by decide)
  exact ⟨h.1, h.2.1, h.2.2⟩

/-- The quadruple returned by `bootstrap_bias_variance`, in its return
order: `(bias, variance, mse_train, mse_test)`. -/
abbrev BVResult := ℚ × ℚ × ℚ × ℚ

/-- The accumulation loop of `bias_variance_analysis_ols`: for each degree,
unpack `bias, variance, mse_train, mse_test = bootstrap_bias_variance(...)`
and append each scalar to its parallel list (`mses_train, mses_test, biases,
variances`).  The estimator call — `bootstrap_bias_variance` together with
the `FrankeData` construction for that degree — is an oracle parameter in an
arbitrary monad `m`, so that raising (`Except`) and call tracing (`StateM`)
are both instances of the same embedded code. -/
def sweepLoop {m : Type → Type} [Monad m] (estimator : ℕ → m BVResult) :
    List ℕ → List ℚ × List ℚ × List ℚ × List ℚ → m (List ℚ × List ℚ × List ℚ × List ℚ)
  | [], acc => pure acc
  | degree :: rest, (mtr, mte, bs, vs) => do
    let r ← estimator degree
    sweepLoop estimator rest
      (mtr ++ [r.2.2.1], mte ++ [r.2.2.2], bs ++ [r.1], vs ++ [r.2.1])

/-- `bias_variance_analysis_ols` from `bias_variance.py`: sweep the degrees
`list(range(1, 16))`, accumulate the four parallel lists, and only then
produce the written file content (`write_to_file("bias_variance_ols.csv",
degrees, ..., "degree")`; the fixed file name is outside the model, the
returned lines are the file's content).  `render` is the f-string's
float-to-decimal-text rendering. -/
def bias_variance_analysis_ols {m : Type → Type} [Monad m]
    (bootstrap_bias_variance : ℕ → m BVResult) (render : ℚ → String) : m (List String) := do
  let degrees := List.range' 1 15
  let (mses_train, mses_test, biases, variances) ←
    sweepLoop bootstrap_bias_variance degrees ([], [], [], [])
  pure (write_to_file (degrees.map toString) (mses_train.map render)
    (mses_test.map render) (biases.map render) (variances.map render) "degree")


theorem sweepLoop_cons {m : Type → Type} [Monad m] (est : ℕ → m BVResult)
    (d0 : ℕ) (rest : List ℕ) (mtr mte bs vs : List ℚ) :
    sweepLoop est (d0 :: rest) (mtr, mte, bs, vs)
      = est d0 >>= fun r => sweepLoop est rest
          (mtr ++ [r.2.2.1], mte ++ [r.2.2.2], bs ++ [r.1], vs ++ [r.2.1]) := rfl

theorem except_bind_err {ε α β : Type} (e : ε) (f : α → Except ε β) :
    (Except.error e : Except ε α) >>= f = Except.error e := rfl

theorem except_bind_ok {ε α β : Type} (a : α) (f : α → Except ε β) :
    (Except.ok a : Except ε α) >>= f = f a := rfl

theorem sweepLoop_error {ε : Type} (est : ℕ → Except ε BVResult) :
    ∀ (l : List ℕ) (acc : List ℚ × List ℚ × List ℚ × List ℚ),
      (∃ d ∈ l, ∃ e, est d = Except.error e) →
      ∃ e2, sweepLoop est l acc = Except.error e2 := by
  intro l
  induction l with
  | nil =>
    intro acc h
    obtain ⟨d, hd, _⟩ := h
    simp at hd
  | cons d0 rest ih =>
    intro acc h
    obtain ⟨mtr, mte, bs, vs⟩ := acc
    cases hest : est d0 with
    | error e0 =>
      refine ⟨e0, ?_⟩
      rw [sweepLoop_cons, hest, except_bind_err]
    | ok r =>
      obtain ⟨d, hd, e, he⟩ := h
      have hdr : d ∈ rest := by
        rcases List.mem_cons.mp hd with h1 | h1
        · subst h1
          rw [hest] at he
          exact absurd he (by simp)
        · exact h1
      obtain ⟨e2, h2⟩ := ih (mtr ++ [r.2.2.1], mte ++ [r.2.2.2], bs ++ [r.1], vs ++ [r.2.1])
        ⟨d, hdr, e, he⟩
      refine ⟨e2, ?_⟩
      rw [sweepLoop_cons, hest, except_bind_ok]
      exact h2

theorem sweepLoop_ok_all {ε : Type} (est : ℕ → Except ε BVResult) :
    ∀ (l : List ℕ) (acc out : List ℚ × List ℚ × List ℚ × List ℚ),
      sweepLoop est l acc = Except.ok out →
      ∀ d ∈ l, ∃ r, est d = Except.ok r := by
  intro l
  induction l with
  | nil =>
    intro acc out _ d hd
    simp at hd
  | cons d0 rest ih =>
    intro acc out hok d hd
    obtain ⟨mtr, mte, bs, vs⟩ := acc
    rw [sweepLoop_cons] at hok
    cases hest : est d0 with
    | error e0 =>
      rw [hest, except_bind_err] at hok
      exact absurd hok (by simp)
    | ok r =>
      rcases List.mem_cons.mp hd with h1 | h1
      · subst h1
        exact ⟨r, hest⟩
      · rw [hest, except_bind_ok] at hok
        exact ih _ out hok d h1

/-- C7: with the estimator modelled in `Except` (a raising `fit`/`predict`
propagates as `Except.error`), if any swept invocation raises then the whole
`bias_variance_analysis_ols` run is an error and no file content is
produced; conversely a completed run implies every one of the 15 estimator
invocations succeeded — the result file is either the complete table or
nothing. -/
theorem C7_no_partial_write {ε : Type} (est : ℕ → Except ε BVResult) (render : ℚ → String)
    (d : ℕ) (e : ε) (hd : d ∈ List.range' 1 15) (he : est d = Except.error e) :
    (∃ e2, bias_variance_analysis_ols est render = Except.error e2)
    ∧ (∀ lines, bias_variance_analysis_ols est render = Except.ok lines →
        ∀ d2 ∈ List.range' 1 15, ∃ r, est d2 = Except.ok r) := by
  constructor
  · obtain ⟨e2, h2⟩ := sweepLoop_error est (List.range' 1 15) ([], [], [], []) ⟨d, hd, e, he⟩
    refine ⟨e2, ?_⟩
    rw [show bias_variance_analysis_ols est render
        = sweepLoop est (List.range' 1 15) ([], [], [], []) >>= fun out =>
            pure (write_to_file ((List.range' 1 15).map toString) (out.1.map render)
              (out.2.1.map render) (out.2.2.1.map render) (out.2.2.2.map render) "degree")
      from rfl]
    rw [h2, except_bind_err]
  · intro lines hok d2 hd2
    rw [show bias_variance_analysis_ols est render
        = sweepLoop est (List.range' 1 15) ([], [], [], []) >>= fun out =>
            pure (write_to_file ((List.range' 1 15).map toString) (out.1.map render)
              (out.2.1.map render) (out.2.2.1.map render) (out.2.2.2.map render) "degree")
      from rfl] at hok
    cases hsl : sweepLoop est (List.range' 1 15) ([], [], [], []) with
    | error e0 =>
      rw [hsl, except_bind_err] at hok
      exact absurd hok (by simp)
    | ok out =>
      exact sweepLoop_ok_all est (List.range' 1 15) ([], [], [], []) out hsl d2 hd2

/-- An estimator oracle that raises exactly at degree 3, for the C7 witness. -/
def estBoom : ℕ → Except String BVResult :=
  fun d => if d = 3 then Except.error "boom" else Except.ok (0, 0, 0, 0)

/-- Witness for C7: with `estBoom` (which raises at the swept degree 3), the
whole run errors, and any completed run would certify all 15 calls. -/
theorem C7_no_partial_write_witness :
    (∃ e2, bias_variance_analysis_ols estBoom (fun _ => "0") = Except.error e2)
    ∧ (∀ lines, bias_variance_analysis_ols estBoom (fun _ => "0") = Except.ok lines →
        ∀ d2 ∈ List.range' 1 15, ∃ r, estBoom d2 = Except.ok r) :=
  C7_no_partial_write estBoom (fun _ => "0") 3 "boom" (by decide) rfl


theorem id_bind_eq {α β : Type} (a : Id α) (g : α → Id β) : (a >>= g) = g a := rfl

theorem stateM_run_bind {σ α β : Type} (x : StateM σ α) (g : α → StateM σ β) (s : σ) :
    (x >>= g) s = g (x s).1 (x s).2 := rfl

theorem stateM_run_pure {σ α : Type} (a : α) (s : σ) :
    (pure a : StateM σ α) s = (a, s) := rfl

theorem sweepLoop_stateM (f : ℕ → BVResult) :
    ∀ (l : List ℕ) (mtr mte bs vs : List ℚ) (t : List ℕ),
      (sweepLoop (m := StateM (List ℕ)) (fun d => fun s => (f d, s ++ [d])) l
          (mtr, mte, bs, vs)) t
        = ((mtr ++ l.map fun d => (f d).2.2.1, mte ++ l.map fun d => (f d).2.2.2,
            bs ++ l.map fun d => (f d).1, vs ++ l.map fun d => (f d).2.1), t ++ l) := by
  intro l
  induction l with
  | nil =>
    intro mtr mte bs vs t
    simp
    rfl
  | cons d0 rest ih =>
    intro mtr mte bs vs t
    rw [show (sweepLoop (m := StateM (List ℕ)) (fun d => fun s => (f d, s ++ [d]))
          (d0 :: rest) (mtr, mte, bs, vs)) t
        = (sweepLoop (m := StateM (List ℕ)) (fun d => fun s => (f d, s ++ [d])) rest
            (mtr ++ [(f d0).2.2.1], mte ++ [(f d0).2.2.2], bs ++ [(f d0).1],
              vs ++ [(f d0).2.1])) (t ++ [d0]) from rfl]
    rw [ih]
    simp

theorem sweepLoop_id (f : ℕ → BVResult) :
    ∀ (l : List ℕ) (mtr mte bs vs : List ℚ),
      sweepLoop (m := Id) (fun d => pure (f d)) l (mtr, mte, bs, vs)
        = (mtr ++ l.map fun d => (f d).2.2.1, mte ++ l.map fun d => (f d).2.2.2,
           bs ++ l.map fun d => (f d).1, vs ++ l.map fun d => (f d).2.1) := by
  intro l
  induction l with
  | nil =>
    intro mtr mte bs vs
    simp
    rfl
  | cons d0 rest ih =>
    intro mtr mte bs vs
    rw [show sweepLoop (m := Id) (fun d => pure (f d)) (d0 :: rest) (mtr, mte, bs, vs)
        = sweepLoop (m := Id) (fun d => pure (f d)) rest
            (mtr ++ [(f d0).2.2.1], mte ++ [(f d0).2.2.2], bs ++ [(f d0).1],
              vs ++ [(f d0).2.1]) from rfl]
    rw [ih]
    simp

theorem write_to_file_map (ds : List ℕ) (g1 g2 g3 g4 : ℕ → String) (x_label : String) :
    write_to_file (ds.map toString) (ds.map g1) (ds.map g2) (ds.map g3) (ds.map g4) x_label
      = (x_label ++ ",mse_train,mse_test,bias,variance") ::
        ds.map fun d =>
          toString d ++ "," ++ g1 d ++ "," ++ g2 d ++ "," ++ g3 d ++ "," ++ g4 d := by
  rw [write_to_file, List.length_map]
  congr 1
  apply List.ext_getElem
  · simp
  · intro i h1 h2
    have hlen : i < ds.length := by simpa using h2
    rw [List.getElem_map, List.getElem_map, List.getElem_range]
    rw [getElem!_pos (ds.map toString) i (by simpa), getElem!_pos (ds.map g1) i (by simpa),
        getElem!_pos (ds.map g2) i (by simpa), getElem!_pos (ds.map g3) i (by simpa),
        getElem!_pos (ds.map g4) i (by simpa)]
    rw [List.getElem_map, List.getElem_map, List.getElem_map, List.getElem_map,
        List.getElem_map]

/-- C8: the sweep calls the estimator once per degree, on the degrees
1..15 in increasing order (the call trace recorded by the `StateM`
instrumentation is exactly `[1, ..., 15]`), and the produced table pairs
data row `i` with the `i`-th swept degree and with the four scalars of that
degree's estimator result, mapped from the return order
`(bias, variance, mse_train, mse_test)` into the column order
`mse_train, mse_test, bias, variance`. -/
theorem C8_sweep_order_and_alignment (f : ℕ → BVResult) (render : ℚ → String) :
    (StateT.run (bias_variance_analysis_ols (m := StateM (List ℕ))
        (fun d => fun trace => (f d, trace ++ [d])) render) []).2 = List.range' 1 15
    ∧ bias_variance_analysis_ols (m := Id) (fun d => pure (f d)) render
      = "degree,mse_train,mse_test,bias,variance" ::
        (List.range' 1 15).map (fun d =>
          toString d ++ "," ++ render (f d).2.2.1 ++ "," ++ render (f d).2.2.2
            ++ "," ++ render (f d).1 ++ "," ++ render (f d).2.1) := by
  constructor
  · rw [show StateT.run (bias_variance_analysis_ols (m := StateM (List ℕ))
          (fun d => fun trace => (f d, trace ++ [d])) render) []
        = (sweepLoop (m := StateM (List ℕ)) (fun d => fun trace => (f d, trace ++ [d]))
              (List.range' 1 15) ([], [], [], []) >>= fun out =>
            pure (write_to_file ((List.range' 1 15).map toString) (out.1.map render)
              (out.2.1.map render) (out.2.2.1.map render) (out.2.2.2.map render) "degree")) []
      from rfl]
    rw [stateM_run_bind, sweepLoop_stateM f (List.range' 1 15) [] [] [] [] [],
      stateM_run_pure]
    simp
  · rw [show bias_variance_analysis_ols (m := Id) (fun d => pure (f d)) render
        = (sweepLoop (m := Id) (fun d => pure (f d)) (List.range' 1 15) ([], [], [], [])
            >>= fun out =>
            pure (write_to_file ((List.range' 1 15).map toString) (out.1.map render)
              (out.2.1.map render) (out.2.2.1.map render) (out.2.2.2.map render) "degree"))
      from rfl]
    rw [sweepLoop_id f (List.range' 1 15) [] [] [] []]
    rw [id_bind_eq]
    dsimp only
    simp only [List.nil_append, List.map_map, Function.comp_def]
    rw [write_to_file_map (List.range' 1 15) (fun d => render (f d).2.2.1)
      (fun d => render (f d).2.2.2) (fun d => render (f d).1) (fun d => render (f d).2.1)
      "degree"]
    rfl

/-- The coordinate sampling of `FrankeData.__init__`:
`data = np.random.rand(N * 2).reshape(N, 2); x = data[:, 0]; y = data[:, 1]`.
The global uniform source `np.random.rand` is the oracle stream `rand`
(entry `k` is the `k`-th draw, a value in `[0, 1)`); row-major reshape puts
flat draw `r * 2 + c` at position `(r, c)`, so `x` is the list of draws at
even indices and `y` at odd indices. -/
def franke_init_x (rand : ℕ → ℚ) (N : ℕ) : List ℚ :=
  (List.range N).map fun r => rand (r * 2)

/-- The second coordinate column of the same `reshape(N, 2)` sampling, see
`franke_init_x`. -/
def franke_init_y (rand : ℕ → ℚ) (N : ℕ) : List ℚ :=
  (List.range N).map fun r => rand (r * 2 + 1)

theorem consumed_draws (N : ℕ) :
    (List.range N).flatMap (fun r => [r * 2, r * 2 + 1]) = List.range (N * 2) := by
  induction N with
  | zero => rfl
  | succ n ih =>
    rw [List.range_succ, List.flatMap_append, ih]
    have h2 : (n + 1) * 2 = n * 2 + 1 + 1 := by ring
    rw [h2, List.range_succ, List.range_succ]
    simp

/-- C9: the constructor draws exactly `N` sample points (`x` and `y` each
have length `N`, one point per row — not `N²` points as the docstring says),
both coordinates of every point come from the global uniform-[0,1) source
(so they lie in `[0, 1)` whenever the source's draws do), and the draws
consumed — flat position `r*2` for `x` and `r*2 + 1` for `y` of row `r` —
are exactly the `N*2` fresh consecutive draws of the seedless global stream,
each used once. -/
theorem C9_constructor_sampling (rand : ℕ → ℚ) (N : ℕ) (hN : 0 < N)
    (h01 : ∀ k, 0 ≤ rand k ∧ rand k < 1) :
    (franke_init_x rand N).length = N
    ∧ (franke_init_y rand N).length = N
    ∧ (∀ v ∈ franke_init_x rand N, 0 ≤ v ∧ v < 1)
    ∧ (∀ v ∈ franke_init_y rand N, 0 ≤ v ∧ v < 1)
    ∧ (List.range N).flatMap (fun r => [r * 2, r * 2 + 1]) = List.range (N * 2) := by
  refine ⟨by simp [franke_init_x], by simp [franke_init_y], ?_, ?_, consumed_draws N⟩
  · intro v hv
    obtain ⟨r, _, hr⟩ := List.mem_map.mp hv
    rw [← hr]
    exact h01 (r * 2)
  · intro v hv
    obtain ⟨r, _, hr⟩ := List.mem_map.mp hv
    rw [← hr]
    exact h01 (r * 2 + 1)

/-- Witness for C9: a constant stream of `1/2` at `N = 2`. -/
theorem C9_constructor_sampling_witness :
    (franke_init_x (fun _ => 1/2) 2).length = 2
    ∧ (franke_init_y (fun _ => 1/2) 2).length = 2
    ∧ (∀ v ∈ franke_init_x (fun _ => 1/2) 2, 0 ≤ v ∧ v < 1)
    ∧ (∀ v ∈ franke_init_y (fun _ => 1/2) 2, 0 ≤ v ∧ v < 1)
    ∧ (List.range 2).flatMap (fun r => [r * 2, r * 2 + 1]) = List.range (2 * 2) :=
  C9_constructor_sampling (fun _ => 1/2) 2 (by decide)
    (fun _ => ⟨by norm_num, by norm_num⟩)

/-- The stored-target construction of `FrankeData.__init__` on the default
path `random_noise=True, scale_data=True`:
`z = self.NoisyFrankeFunction(x, y, noise_level)` and then
`z = self.scale_data(z)` — the (spec-modelled, see `scale_data`) rescale is
applied to the already-noised targets. -/
def franke_init_z (exp : ℚ → ℚ) (normal : ℚ → ℚ → ℕ → ℕ → ℚ)
    (x y : ℕ → ℚ) (N : ℕ) (noise_level : ℚ) : List ℚ :=
  scale_data ((List.range N).map (NoisyFrankeFunction exp normal N x y noise_level))

/-- The alternative order that C10 rules out: rescale the noiseless targets
by their own maximum, then add the noise. -/
def franke_alt_z (exp : ℚ → ℚ) (normal : ℚ → ℚ → ℕ → ℕ → ℚ)
    (x y : ℕ → ℚ) (N : ℕ) (noise_level : ℚ) : List ℚ :=
  (List.range N).map fun r =>
    FrankeFunction exp (x r) (y r)
        / listMax ((List.range N).map fun s => FrankeFunction exp (x s) (y s))
      + generate_noise normal N noise_level r

/-- C10: with the default flags the stored target vector is elementwise
`(FrankeFunction(x,y) + noise) / max(FrankeFunction(x,y) + noise)` — the
rescale divides by the maximum of the *noised* values — and it differs from
the scaled-noiseless-plus-noise pipeline at a concrete instance (so the
stored targets minus the noiseless values are not the injected noise). -/
theorem C10_scale_applied_to_noised (exp : ℚ → ℚ) (normal : ℚ → ℚ → ℕ → ℕ → ℚ)
    (x y : ℕ → ℚ) (N : ℕ) (sigma : ℚ) :
    franke_init_z exp normal x y N sigma
      = (List.range N).map (fun r =>
          (FrankeFunction exp (x r) (y r) + normal 0 sigma N r)
            / listMax ((List.range N).map fun s =>
                FrankeFunction exp (x s) (y s) + normal 0 sigma N s))
    ∧ franke_init_z (fun _ => 1) (fun _ _ _ k => if k = 0 then 1 else 2)
        (fun _ => 0) (fun _ => 0) 2 1
      ≠ franke_alt_z (fun _ => 1) (fun _ _ _ k => if k = 0 then 1 else 2)
        (fun _ => 0) (fun _ => 0) 2 1 := by
  constructor
  · rw [franke_init_z, scale_data, List.map_map]
    rfl
  · have h0 : franke_init_z (fun _ => 1) (fun _ _ _ k => if k = 0 then 1 else 2)
        (fun _ => 0) (fun _ => 0) 2 1 = [14/19, 1] := by
      norm_num [franke_init_z, scale_data, NoisyFrankeFunction, FrankeFunction,
        generate_noise, listMax, max_def, List.range_succ]
    have h1 : franke_alt_z (fun _ => 1) (fun _ _ _ k => if k = 0 then 1 else 2)
        (fun _ => 0) (fun _ => 0) 2 1 = [2, 3] := by
      norm_num [franke_alt_z, FrankeFunction, generate_noise, listMax, max_def,
        List.range_succ]
    rw [h0, h1]
    norm_num
